import Mathlib

/-!
# Verification of the Bedrock Knowledge Base POC chunk-embedding-and-retrieval engine

Shallow embedding of the core operations of the repository
(`src/lambda_codes/main_handler.py`, `src/lambda/main_handler.py`,
`src/lambda/ingest.py`, `src/lambda/init_db.py`,
`src/lambda_codes/init_db.py`), together with proofs of the testable
properties stated in the specification.

Modelling conventions:
 - Python floats are modelled as `ℚ` where only ring operations occur, and as
   `ℝ` where `math.sqrt` is involved (cosine similarity).
 - Fallible calls (external services, DB statement failures) are modelled by
   `Option`/`Except` values or by explicit outcome oracles passed as
   parameters.
 - `time.sleep` calls are recorded in a list so retry/backoff schedules are
   visible in the model.
 - Timestamp columns (`created_at`/`updated_at`, set with `NOW()`) are not
   modelled: they are nondeterministic inputs from the environment and no
   claim is about them.
-/

namespace BedrockPOC

/-! ## Chunker: `split_chunk_text` (src/lambda_codes/main_handler.py, lines 88-112)

```python
def split_chunk_text(text, chunk_size=CHUNK_SIZE, overlap=50):
    words = text.split()
    chunks = []
    for i in range(0, len(words), chunk_size - overlap):
        chunk = ' '.join(words[i:i + chunk_size])
        if chunk.strip():
            chunks.append(chunk)
        # Break if we've reached the end
        if i + chunk_size >= len(words):
            break
    return chunks
```
-/

/-- Helper for `pySplit`: splits a character list at whitespace runs, like
Python `str.split()` with no argument. `cur` is the current word being read,
in reverse. -/
def pySplitAux (cur : List Char) : List Char → List (List Char)
  | [] => if cur.isEmpty then [] else [cur.reverse]
  | c :: cs =>
    if c.isWhitespace then
      if cur.isEmpty then pySplitAux [] cs
      else cur.reverse :: pySplitAux [] cs
    else
      pySplitAux (c :: cur) cs

/-- Python `text.split()`: split on runs of whitespace, discarding empty
pieces. -/
def pySplit (text : String) : List String :=
  (pySplitAux [] text.toList).map String.mk

/-- Truthiness of Python `chunk.strip()`: nonempty after stripping iff the
string contains a non-whitespace character. -/
def hasNonWs (s : String) : Bool :=
  s.toList.any (fun c => !c.isWhitespace)

/-- Python `' '.join(ws)`. -/
def joinSp : List String → String
  | [] => ""
  | [w] => w
  | w :: ws => w ++ " " ++ joinSp ws

/-- The window loop of `split_chunk_text` for a positive step.
`s + 1` is the loop step `chunk_size - overlap`; the fuel argument makes the
recursion structural (any fuel `≥ words.length` gives the loop's behaviour,
since the start index advances by at least one word per iteration).
Each iteration takes the window `words[i:i+cs]` and breaks once
`i + cs >= len(words)`, i.e. once `cs` is not smaller than the remaining
suffix. -/
def chunkGo (cs s : Nat) : Nat → List α → List (List α)
  | _, [] => []
  | 0, _ :: _ => []
  | fuel + 1, w :: ws =>
    if cs < (w :: ws).length then
      (w :: ws).take cs :: chunkGo cs s fuel ((w :: ws).drop (s + 1))
    else
      [(w :: ws).take cs]

/-- The word windows produced by `split_chunk_text`'s loop: windows of
`cs` words whose start advances by `cs - ov` words, stopping at the first
window that reaches the end of the word list. Meaningful when `ov < cs`. -/
def chunkWindows (cs ov : Nat) (words : List α) : List (List α) :=
  chunkGo cs (cs - ov - 1) words.length words

/-- Concatenation of the non-overlapping portions of a window list: every
non-final window contributes its first `s` elements (the amount the window
start advances), the final window contributes all of its elements. Used to
state the chunk-coverage property. -/
def reconstruct (s : Nat) : List (List α) → List α
  | [] => []
  | [w] => w
  | w :: ws => w.take s ++ reconstruct s ws

/-- `split_chunk_text(text, chunk_size, overlap)`.
`chunk_size = overlap` makes the Python `range` step zero, which raises
`ValueError` (modelled as `Except.error`); `chunk_size < overlap` makes the
step negative, so `range(0, len(words), step)` is empty and the function
returns `[]` without any error. Otherwise the loop runs with positive step
`chunk_size - overlap` and keeps the chunks whose `.strip()` is truthy. -/
def split_chunk_text (text : String) (chunk_size overlap : Nat) :
    Except String (List String) :=
  let words := pySplit text
  if chunk_size = overlap then
    .error "ValueError: range() arg 3 must not be zero"
  else if chunk_size < overlap then
    .ok []
  else
    .ok (((chunkWindows chunk_size overlap words).map joinSp).filter hasNonWs)

/-! ## Chunk store: `store_chunks_in_aurora` (src/lambda_codes/main_handler.py,
lines 139-212) against the `document_chunks` table
(src/lambda_codes/init_db.py: `embedding vector(1536)`,
`UNIQUE(document_id, chunk_index)`; src/lambda/init_db.py lines 90-103:
`embedding_vector VECTOR(1536) NOT NULL`,
`CONSTRAINT document_chunks_unique_doc_idx UNIQUE (document_id, chunk_index)`).

The embedding call `generate_embedding` (lines 115-136) is modelled by an
oracle `embed : String → Option (List ℚ)`; `none` is the `return None` taken
when `invoke_model` raises. The `vector(1536)` column type makes an INSERT or
UPDATE fail unless the supplied vector has exactly 1536 components.

All the chunk INSERTs run in one psycopg2 transaction (the `with conn:`
block). A dimension-rejected INSERT therefore aborts the transaction: the
`failed_chunks` INSERT attempted by the per-chunk `except` branch itself
raises `InFailedSqlTransaction` (swallowed by the inner bare `except: pass`),
every later chunk INSERT in the loop raises the same way (caught by the
per-chunk `except`), and the COMMIT at the end of the `with` block is
executed on an aborted transaction, which performs a rollback — so the whole
batch is discarded and the database keeps its pre-call contents, while the
function still returns the `stored_count` accumulated before the failure.
This abort-and-rollback behaviour is modelled explicitly: the loop carries an
`aborted` flag, and the commit keeps the transaction's work only when the
flag is clear. Embedding generation is an external call outside the
transaction, so it still runs (and falsy results are still skipped) after an
abort. -/

/-- Dimensionality of the `vector(1536)` embedding column. -/
def EMBED_DIM : Nat := 1536

/-- One row of the `document_chunks` table (timestamp columns omitted). -/
structure ChunkRow where
  document_id : String
  chunk_index : Nat
  chunk_text : String
  embedding : List ℚ
  metadata : String
  status : String
deriving DecidableEq, Repr

/-- The `(document_id, chunk_index)` key of the table's UNIQUE constraint. -/
def rowKey (r : ChunkRow) : String × Nat :=
  (r.document_id, r.chunk_index)

/-- The keys of all rows of a table. -/
def tableKeys (t : List ChunkRow) : List (String × Nat) :=
  t.map rowKey

/-- `INSERT ... ON CONFLICT (document_id, chunk_index) DO UPDATE SET ...`:
if a row with the same key exists it is updated in place with the new text,
embedding, metadata and status; otherwise the new row is appended. -/
def upsertChunk (t : List ChunkRow) (r : ChunkRow) : List ChunkRow :=
  if t.any (fun q => rowKey q = rowKey r) then
    t.map (fun q => if rowKey q = rowKey r then r else q)
  else
    t ++ [r]

/-- A row of the `failed_chunks` log table: document id, chunk index,
chunk text, error reason. No row of this table ever persists from
`store_chunks_in_aurora`: its INSERT runs inside the already-aborted
transaction, raises `InFailedSqlTransaction`, and is swallowed by the bare
`except: pass` — and even a hypothetical success would be rolled back with
the rest of the batch. -/
structure FailedRow where
  document_id : String
  chunk_index : Nat
  chunk_text : String
  error_reason : String
deriving DecidableEq, Repr

/-- The database state touched by `store_chunks_in_aurora`. -/
structure StoreState where
  chunks : List ChunkRow
  failed : List FailedRow
deriving DecidableEq, Repr

/-- State plus the `stored_count` accumulator of `store_chunks_in_aurora`. -/
structure StoreRun where
  state : StoreState
  stored_count : Nat
deriving DecidableEq, Repr

/-- The in-transaction state of the chunk loop: the provisional
`document_chunks` contents, the `stored_count` accumulator, and whether the
transaction has been aborted by a failed statement. -/
structure TxRun where
  chunks : List ChunkRow
  stored_count : Nat
  aborted : Bool
deriving DecidableEq, Repr

/-- Whether the embedding generated for a chunk text makes its INSERT fail
the `vector(1536)` dimension check: a truthy (non-`None`, nonempty) embedding
whose length is not `EMBED_DIM`. Such a chunk aborts the transaction. -/
def badEmbed (embed : String → Option (List ℚ)) (c : String) : Bool :=
  match embed c with
  | none => false
  | some emb => !decide (emb = []) && !decide (emb.length = EMBED_DIM)

/-- One iteration of the chunk loop of `store_chunks_in_aurora` on
`(idx, chunk_text)`:
generate the embedding (an external call, it happens even after an abort);
`if not embedding: continue` skips `None` and `[]` without touching the
database; otherwise attempt the INSERT: inside an aborted transaction it
raises `InFailedSqlTransaction` and the `except` branch swallows it (its own
`failed_chunks` INSERT raises too); in a live transaction the `vector(1536)`
column accepts the row exactly when the vector has `EMBED_DIM` components —
on acceptance the row is upserted with status `'completed'` and
`stored_count` is incremented, and on rejection the statement error aborts
the transaction. -/
def storeChunkStep (embed : String → Option (List ℚ)) (docId meta : String)
    (acc : TxRun) (ic : Nat × String) : TxRun :=
  match embed ic.2 with
  | none => acc
  | some emb =>
    if emb = [] then acc
    else if acc.aborted then acc
    else if emb.length = EMBED_DIM then
      { chunks := upsertChunk acc.chunks
          ⟨docId, ic.1, ic.2, emb, meta, "completed"⟩,
        stored_count := acc.stored_count + 1, aborted := false }
    else
      { acc with aborted := true }

/-- Exit of the `with conn:` block: COMMIT persists the transaction's work
unless the transaction was aborted, in which case the COMMIT performs a
rollback and the database keeps its pre-call contents; the Python-level
`stored_count` is returned either way. -/
def commitTx (st : StoreState) (tx : TxRun) : StoreRun :=
  if tx.aborted then { state := st, stored_count := tx.stored_count }
  else { state := { chunks := tx.chunks, failed := st.failed },
         stored_count := tx.stored_count }

/-- `store_chunks_in_aurora(document_id, chunks, metadata_dict)` acting on a
database state: iterate the chunk loop over `enumerate(chunks)` in one
transaction, then commit (or roll back when aborted). -/
def store_chunks_in_aurora (embed : String → Option (List ℚ)) (docId : String)
    (chunks : List String) (meta : String) (st : StoreState) : StoreRun :=
  commitTx st (chunks.enum.foldl (storeChunkStep embed docId meta)
    { chunks := st.chunks, stored_count := 0, aborted := false })

/-- Number of chunk rows stored for a document. -/
def docChunkCount (t : List ChunkRow) (docId : String) : Nat :=
  (t.filter (fun r => r.document_id = docId)).length

/-- The completed-chunk dimension invariant of the claim: every row whose
status is `'completed'` carries an embedding of exactly `EMBED_DIM` floats. -/
def completedDimInv (t : List ChunkRow) : Prop :=
  ∀ r ∈ t, r.status = "completed" → r.embedding.length = EMBED_DIM

/-! ## Cosine similarity (src/lambda/main_handler.py lines 247-251,
src/lambda/knowledgebase_handler.py lines 48-52)

```python
def cosine_similarity(a, b):
    dot = sum(x*y for x,y in zip(a,b))
    norm_a = math.sqrt(sum(x*x for x in a))
    norm_b = math.sqrt(sum(y*y for y in b))
    return dot/(norm_a*norm_b) if norm_a and norm_b else 0.0
```

`math.sqrt` is modelled by `Real.sqrt`; the Python truthiness test
`if norm_a and norm_b` returns the quotient exactly when both norms are
nonzero and `0.0` otherwise. -/

/-- `sum(x*x for x in a)`. -/
def sumSq (a : List ℝ) : ℝ :=
  (a.map (fun x => x * x)).sum

/-- `sum(x*y for x,y in zip(a,b))`. -/
def dotProd (a b : List ℝ) : ℝ :=
  (List.zipWith (fun x y => x * y) a b).sum

open Classical in
/-- `cosine_similarity(a, b)`. -/
noncomputable def cosine_similarity (a b : List ℝ) : ℝ :=
  if Real.sqrt (sumSq a) = 0 ∨ Real.sqrt (sumSq b) = 0 then 0
  else dotProd a b / (Real.sqrt (sumSq a) * Real.sqrt (sumSq b))

/-! ## Embedder retry: `get_chunk_embedding` (src/lambda/main_handler.py,
lines 100-118)

```python
def get_chunk_embedding(text, retries=EMBED_RETRIES):
    for attempt in range(1, retries+1):
        try:
            ... invoke_model ...
            emb = data.get('embedding') or []
            return [float(x) for x in emb]
        except Exception as e:
            if attempt < retries:
                time.sleep(EMBED_RETRY_SECONDS * attempt)
            else:
                return []
```

Each attempt is modelled by an oracle `Nat → Option (List ℚ)`: `some emb`
means the try block succeeded and produced the list `emb` (already including
the `or []` default), `none` means it raised. `result = none` models the
implicit `return None` reached only when `retries = 0` (empty range). -/

/-- Outcome of a `get_chunk_embedding` run: the returned value, the arguments
passed to `time.sleep`, and the number of attempts made. -/
structure EmbedRun where
  result : Option (List ℚ)
  sleeps : List Nat
  attempts : Nat
deriving DecidableEq, Repr

/-- The retry loop of `get_chunk_embedding`, structural on the remaining
fuel (`retries` at entry, so fuel never runs out while `attempt ≤ retries`). -/
def embedLoop (oracle : Nat → Option (List ℚ)) (base retries : Nat) :
    Nat → Nat → List Nat → EmbedRun
  | _, 0, sleeps => { result := none, sleeps := sleeps, attempts := 0 }
  | attempt, fuel + 1, sleeps =>
    match oracle attempt with
    | some emb => { result := some emb, sleeps := sleeps, attempts := attempt }
    | none =>
      if attempt < retries then
        embedLoop oracle base retries (attempt + 1) fuel (sleeps ++ [base * attempt])
      else
        { result := some [], sleeps := sleeps, attempts := attempt }

/-- `get_chunk_embedding(text, retries)` with backoff base
`EMBED_RETRY_SECONDS`; the attempt counter starts at 1. -/
def get_chunk_embedding (oracle : Nat → Option (List ℚ)) (base retries : Nat) :
    EmbedRun :=
  embedLoop oracle base retries 1 retries []

/-! ## Sync trigger: `trigger_bedrock_ingestion` (src/lambda/main_handler.py,
lines 162-183)

```python
def trigger_bedrock_ingestion(kb_id, data_source_id, max_retries=MAX_INGEST_RETRIES):
    for attempt in range(max_retries):
        try:
            wait_ok = wait_until_ingestion_free(...)
            ...
            resp = bedrock_agent.start_ingestion_job(...)
            job_id = ...
            return job_id
        except bedrock_agent.exceptions.ConflictException:
            backoff = INGEST_RETRY_BASE_SECONDS * (2**attempt) + random.uniform(0, 2)
            time.sleep(backoff)
        except Exception as e:
            backoff = INGEST_RETRY_BASE_SECONDS * (2**attempt) + random.uniform(0, 2)
            time.sleep(backoff)
    return None
```

`start_ingestion_job` is modelled by an oracle per attempt;
`random.uniform(0, 2)` by a jitter oracle. `wait_until_ingestion_free` only
logs its boolean result and never raises (its callees swallow exceptions), so
it does not affect control flow and is not modelled. The result type
`Except String (Option String)` reserves `.error` for an uncaught exception;
both `except` branches catch everything, so the model only ever produces
`.ok`: `.ok (some jobId)` for the in-loop `return job_id` and `.ok none` for
the final `return None`. -/

/-- Outcome of one `start_ingestion_job` attempt. -/
inductive StartResult where
  | started (jobId : String)
  | conflict
  | failure (msg : String)
deriving DecidableEq, Repr

deriving instance DecidableEq for Except

/-- Outcome of a `trigger_bedrock_ingestion` run. -/
structure SyncRun where
  result : Except String (Option String)
  attempts : Nat
  sleeps : List ℚ
deriving DecidableEq, Repr

/-- The retry loop of `trigger_bedrock_ingestion`, structural on the number
of remaining attempts. -/
def triggerLoop (oracle : Nat → StartResult) (base : ℚ) (jitter : Nat → ℚ) :
    Nat → Nat → List ℚ → SyncRun
  | attempt, 0, sleeps => { result := .ok none, attempts := attempt, sleeps := sleeps }
  | attempt, remaining + 1, sleeps =>
    match oracle attempt with
    | .started j => { result := .ok (some j), attempts := attempt + 1, sleeps := sleeps }
    | _ =>
      triggerLoop oracle base jitter (attempt + 1) remaining
        (sleeps ++ [base * 2 ^ attempt + jitter attempt])

/-- `trigger_bedrock_ingestion(kb_id, data_source_id, max_retries)` with
backoff base `INGEST_RETRY_BASE_SECONDS`. -/
def trigger_bedrock_ingestion (oracle : Nat → StartResult) (base : ℚ)
    (jitter : Nat → ℚ) (max_retries : Nat) : SyncRun :=
  triggerLoop oracle base jitter 0 max_retries []

/-! ## Local brute-force retrieval: `query_top_chunks`
(src/lambda/main_handler.py, lines 253-286) and `parse_embedding`
(lines 241-245)

The rows fetched by
`SELECT chunk_text, embedding_vector, metadata FROM document_chunks WHERE status='completed'`
carry a raw `embedding_vector` value; `parse_embedding` either produces a
float list or raises (`ast.literal_eval` / `float(x)`), which the caller's
`except: continue` turns into skipping the row. The raw value is modelled by
`StoredEmb`: `parsed v` when parsing succeeds with `v`, `malformed` when it
raises.

The similarity function used to score a candidate is `cosine_similarity`
above; it is passed here as an explicit parameter `sim` so that the ranking
pipeline stays constructive (the claims about this pipeline hold for every
scoring function, in particular for the cosine). -/

/-- Raw stored `embedding_vector` value as seen by `parse_embedding`. -/
inductive StoredEmb where
  | parsed (v : List ℚ)
  | malformed
deriving DecidableEq, Repr

/-- `parse_embedding(embedding)`: `none` models the exception path. -/
def parse_embedding : StoredEmb → Option (List ℚ)
  | .parsed v => some v
  | .malformed => none

/-- A row returned by the `SELECT` over `document_chunks`. -/
structure StoredRow where
  chunk_text : String
  embedding : StoredEmb
  metadata : String
deriving DecidableEq, Repr

/-- A scored retrieval result `{"chunk_text": ..., "metadata": ..., "similarity": ...}`. -/
structure ScoredChunk where
  chunk_text : String
  metadata : String
  similarity : ℚ
deriving DecidableEq, Repr

/-- The `chunk_vectors` list: rows whose embedding parses to a nonempty
vector (`if vec:`); rows whose parse raises are skipped by `except: continue`. -/
def chunkVectors (rows : List StoredRow) : List (String × List ℚ × String) :=
  rows.filterMap (fun row =>
    match parse_embedding row.embedding with
    | some vec => if vec = [] then none else some (row.chunk_text, vec, row.metadata)
    | none => none)

/-- The candidates scored for a query embedding `q`: candidates whose vector
length differs from `q` are skipped by the `continue` in the scoring loop. -/
def queryCandidates (rows : List StoredRow) (q : List ℚ) :
    List (String × List ℚ × String) :=
  (chunkVectors rows).filter (fun c => c.2.1.length = q.length)

/-- The `top` list after `top.sort(key=..., reverse=True)`: every candidate
scored with `sim`, sorted by descending similarity (stable, like Python's
sort). -/
def queryRanked (sim : List ℚ → List ℚ → ℚ) (rows : List StoredRow)
    (q : List ℚ) : List ScoredChunk :=
  ((queryCandidates rows q).map
      (fun c => ⟨c.1, c.2.2, sim q c.2.1⟩ : _ → ScoredChunk)).mergeSort
    (fun x y => y.similarity ≤ x.similarity)

/-- `query_top_chunks` for one query whose embedding is `q`
(`if not query_embed: results[query] = []`), returning `top[:top_k]`. -/
def query_top_chunks (sim : List ℚ → List ℚ → ℚ) (rows : List StoredRow)
    (q : List ℚ) (top_k : Nat) : List ScoredChunk :=
  if q = [] then [] else (queryRanked sim rows q).take top_k

/-! ## Filtered retrieval: `retrieve_from_knowledge_base`
(src/lambda_codes/main_handler.py, lines 500-652)

The function builds a metadata filter from the optional `document_ids`,
`tenant_id`, `user_id`, `project_id` and `thread_id` arguments and passes it,
with `numberOfResults = k`, to the managed vector index's Retrieve API. The
filter grammar it constructs is: an `equals` condition, an `orAll` over
`equals` conditions (multiple document ids), and a top-level `andAll` when
more than one condition is present.

The Retrieve call itself is implemented by the external managed index, not by
this repository; `bedrockRetrieve` below is therefore modelled from the spec:
the index applies the metadata filter strictly before ranking and returns the
`k` highest-scoring matching chunks (spec sections 4.4 and 6). The function's
bookkeeping writes to `query_history`/`query_results` do not change the
returned result list and are not modelled. -/

/-- A filter condition the code can construct: `{'equals': {'key': k, 'value': v}}`
or `{'orAll': [{'equals': ...}, ...]}`. -/
inductive Cond where
  | eqCond (key value : String)
  | orAllEq (pairs : List (String × String))
deriving DecidableEq, Repr

/-- The `filter` entry of the `vectorSearchConfiguration`: absent, a single
condition, or `{'andAll': conditions}`. -/
inductive KBFilter where
  | noFilter
  | single (c : Cond)
  | andAll (cs : List Cond)
deriving DecidableEq, Repr

/-- Chunk metadata as key/value attributes. -/
abbrev MetaAttrs : Type := List (String × String)

/-- Satisfaction of one condition by a chunk's metadata attributes
(`equals` compares the attribute named `key` with `value`). -/
def matchesCond (meta : MetaAttrs) : Cond → Bool
  | .eqCond k v => meta.lookup k = some v
  | .orAllEq pairs => pairs.any (fun p => meta.lookup p.1 = some p.2)

/-- Satisfaction of the whole filter. -/
def matchesKBFilter (meta : MetaAttrs) : KBFilter → Bool
  | .noFilter => true
  | .single c => matchesCond meta c
  | .andAll cs => cs.all (matchesCond meta)

/-- The condition contributed by one optional scalar filter:
`if value:` skips `None` and the empty string. -/
def optCond (key : String) : Option String → List Cond
  | none => []
  | some v => if v = "" then [] else [.eqCond key v]

/-- The condition contributed by `document_ids`: `if document_ids:` skips
`None` and `[]`; more than one id becomes an `orAll` of `equals`, exactly one
id becomes a single `equals`. -/
def docIdsCond : Option (List String) → List Cond
  | none => []
  | some l =>
    if 1 < l.length then [.orAllEq (l.map (fun v => ("document_id", v)))]
    else if l.length = 1 then [.eqCond "document_id" (l.headD "")]
    else []

/-- The `filter_conditions` list built by `retrieve_from_knowledge_base`, in
source order. -/
def buildFilterConditions (docIds : Option (List String))
    (tenant user project thread : Option String) : List Cond :=
  docIdsCond docIds ++ optCond "tenant_id" tenant ++ optCond "user_id" user ++
    optCond "project_id" project ++ optCond "thread_id" thread

/-- Assembly of the `filter` entry: none, the single condition, or `andAll`. -/
def buildKBFilter : List Cond → KBFilter
  | [] => .noFilter
  | [c] => .single c
  | cs => .andAll cs

/-- A chunk of the managed index's corpus, with its metadata attributes and
its relevance score for the query at hand. -/
structure KBChunk where
  content : String
  meta : MetaAttrs
  score : ℚ
deriving DecidableEq, Repr

/-- Modelled from the spec: the managed vector index's Retrieve API
(spec sections 4.4 and 6), which this repository calls but does not
implement. It applies the metadata filter strictly before ranking and
returns the `k` highest-scoring matching chunks. -/
def bedrockRetrieve (corpus : List KBChunk) (filter : KBFilter) (k : Nat) :
    List KBChunk :=
  ((corpus.filter (fun c => matchesKBFilter c.meta filter)).mergeSort
    (fun x y => y.score ≤ x.score)).take k

/-- `retrieve_from_knowledge_base(query_text, k, tenant_id, user_id,
document_ids, project_id, thread_id)`: build the filter from the provided
arguments and retrieve through the managed index. -/
def retrieve_from_knowledge_base (corpus : List KBChunk) (k : Nat)
    (tenant user : Option String) (docIds : Option (List String))
    (project thread : Option String) : List KBChunk :=
  bedrockRetrieve corpus
    (buildKBFilter (buildFilterConditions docIds tenant user project thread)) k

/-- The filter's intended meaning, written directly from the spec's words:
a chunk is admissible iff it agrees with every provided (truthy) filter
value, where a `document_ids` list is matched disjunctively. Used to state
that the filter the code builds denotes exactly this conjunction. -/
def specMatches (docIds : Option (List String))
    (tenant user project thread : Option String) (meta : MetaAttrs) : Bool :=
  (match docIds with
   | none => true
   | some l =>
     if 1 < l.length then l.any (fun v => meta.lookup "document_id" = some v)
     else if l.length = 1 then meta.lookup "document_id" = some (l.headD "")
     else true) &&
  (match tenant with
   | none => true
   | some v => if v = "" then true else meta.lookup "tenant_id" = some v) &&
  (match user with
   | none => true
   | some v => if v = "" then true else meta.lookup "user_id" = some v) &&
  (match project with
   | none => true
   | some v => if v = "" then true else meta.lookup "project_id" = some v) &&
  (match thread with
   | none => true
   | some v => if v = "" then true else meta.lookup "thread_id" = some v)

/-! ## Chunker lemmas -/

/-- Nonempty input and positive fuel always produce at least one window. -/
theorem chunkGo_ne_nil {cs s : Nat} (fuel : Nat) (l : List α) (hne : l ≠ [])
    (hlen : l.length ≤ fuel) : chunkGo cs s fuel l ≠ [] := by
  cases l with
  | nil => exact absurd rfl hne
  | cons a as =>
    cases fuel with
    | zero => simp at hlen
    | succ fuel =>
      rw [chunkGo]
      split <;> simp

/-- Every window is nonempty and draws its elements from the input list. -/
theorem chunkGo_mem {cs s : Nat} (hcs : 0 < cs) :
    ∀ (fuel : Nat) (l w : List α), w ∈ chunkGo cs s fuel l →
      w ≠ [] ∧ ∀ x ∈ w, x ∈ l := by
  intro fuel
  induction fuel with
  | zero =>
    intro l w hw
    cases l <;> simp [chunkGo] at hw
  | succ fuel ih =>
    intro l w hw
    cases l with
    | nil => simp [chunkGo] at hw
    | cons a as =>
      rw [chunkGo] at hw
      by_cases hlen : cs < (a :: as).length
      · rw [if_pos hlen] at hw
        rcases List.mem_cons.mp hw with h | h
        · subst h
          refine ⟨by simp [List.take_eq_nil_iff]; omega, ?_⟩
          intro x hx
          exact List.mem_of_mem_take hx
        · obtain ⟨hne, hsub⟩ := ih _ _ h
          exact ⟨hne, fun x hx => List.mem_of_mem_drop (hsub x hx)⟩
      · rw [if_neg hlen] at hw
        simp only [List.mem_singleton] at hw
        subst hw
        refine ⟨by simp [List.take_eq_nil_iff]; omega, ?_⟩
        intro x hx
        exact List.mem_of_mem_take hx

/-- Chunk coverage of the window loop: with step `s + 1 ≤ cs`, concatenating
the non-overlapping portions of the windows rebuilds the input list. -/
theorem reconstruct_chunkGo {cs s : Nat} (hs : s < cs) :
    ∀ (fuel : Nat) (l : List α), l.length ≤ fuel →
      reconstruct (s + 1) (chunkGo cs s fuel l) = l := by
  intro fuel
  induction fuel with
  | zero =>
    intro l hl
    have hnil : l = [] := List.length_eq_zero.mp (Nat.le_zero.mp hl)
    subst hnil
    simp [chunkGo, reconstruct]
  | succ fuel ih =>
    intro l hl
    cases l with
    | nil => simp [chunkGo, reconstruct]
    | cons a as =>
      rw [chunkGo]
      by_cases hlen : cs < (a :: as).length
      · rw [if_pos hlen]
        have hdroplen : ((a :: as).drop (s + 1)).length ≤ fuel := by
          simp only [List.length_drop]
          simp only [List.length_cons] at hl ⊢
          omega
        have hdropne : (a :: as).drop (s + 1) ≠ [] := by
          intro hcontra
          have := congrArg List.length hcontra
          simp only [List.length_drop, List.length_cons, List.length_nil] at this
          simp only [List.length_cons] at hlen
          omega
        have hne : chunkGo cs s fuel ((a :: as).drop (s + 1)) ≠ [] :=
          chunkGo_ne_nil fuel _ hdropne hdroplen
        obtain ⟨b, bs, hbs⟩ := List.exists_cons_of_ne_nil hne
        rw [hbs, reconstruct, ← hbs, ih _ hdroplen, List.take_take]
        · have hmin : min (s + 1) cs = s + 1 := by omega
          rw [hmin, List.take_append_drop]
        · simp
      · rw [if_neg hlen]
        simp only [reconstruct]
        exact List.take_of_length_le (by simp only [List.length_cons] at hlen ⊢; omega)

/-- `hasNonWs` distributes over string append. -/
theorem hasNonWs_append (a b : String) :
    hasNonWs (a ++ b) = (hasNonWs a || hasNonWs b) := by
  simp [hasNonWs, String.toList, String.data_append]

/-- A space-join of words one of which has a non-whitespace character itself
has a non-whitespace character (so the `chunk.strip()` test keeps it). -/
theorem hasNonWs_joinSp : ∀ (l : List String), (∃ w ∈ l, hasNonWs w = true) →
    hasNonWs (joinSp l) = true
  | [] => by simp
  | [w] => by simp [joinSp]
  | w :: x :: xs => by
    intro h
    rw [joinSp, hasNonWs_append, hasNonWs_append]
    · rcases h with ⟨v, hv, hnws⟩
      rcases List.mem_cons.mp hv with rfl | hv'
      · simp [hnws]
      · have hrec := hasNonWs_joinSp (x :: xs) ⟨v, hv', hnws⟩
        simp [hrec]
    · simp

/-! ## Claim theorems: chunker -/

/-- C5: splitting `"The quick brown fox jumps over the lazy dog"` with
`chunk_size = 4` and `overlap = 1` yields exactly
`["The quick brown fox", "fox jumps over the", "the lazy dog"]`
(three chunks; the function is pure, so every invocation returns this same
sequence). -/
theorem C5_chunker_worked_example :
    split_chunk_text "The quick brown fox jumps over the lazy dog" 4 1 =
      Except.ok ["The quick brown fox", "fox jumps over the", "the lazy dog"] := rfl

/-- C6 counterexample: with `overlap = 3 > chunk_size = 2` the claim demands a
fast configuration failure, but `split_chunk_text` silently returns the empty
chunk sequence (the Python `range` step is negative, so the loop body never
runs and no error is raised). -/
theorem C6_counterexample :
    split_chunk_text "a b c" 2 3 = Except.ok [] := rfl

/-- C6 (amended): `overlap = chunk_size` fails fast with the `range()` zero-step
`ValueError`; `overlap > chunk_size` silently returns the empty sequence
without an error; and for text that tokenizes to no words with valid
parameters (`overlap < chunk_size`) the result is the empty sequence. -/
theorem C6_amended_config_edge_cases (text : String) (chunk_size overlap : Nat) :
    (chunk_size = overlap → split_chunk_text text chunk_size overlap =
      Except.error "ValueError: range() arg 3 must not be zero") ∧
    (chunk_size < overlap → split_chunk_text text chunk_size overlap = Except.ok []) ∧
    (overlap < chunk_size → pySplit text = [] →
      split_chunk_text text chunk_size overlap = Except.ok []) := by
  refine ⟨fun h => ?_, fun h => ?_, fun h hw => ?_⟩
  · simp only [split_chunk_text]
    rw [if_pos h]
  · simp only [split_chunk_text]
    rw [if_neg (by omega), if_pos h]
  · simp only [split_chunk_text]
    rw [if_neg (by omega), if_neg (by omega), hw]
    simp [chunkWindows, chunkGo]

/-- C6 witness: the three amended cases at concrete inputs. -/
theorem C6_amended_witness :
    split_chunk_text "x" 3 3 =
      Except.error "ValueError: range() arg 3 must not be zero" ∧
    split_chunk_text "x" 2 5 = Except.ok [] ∧
    split_chunk_text "   " 3 1 = Except.ok [] :=
  ⟨(C6_amended_config_edge_cases "x" 3 3).1 rfl,
   (C6_amended_config_edge_cases "x" 2 5).2.1 (by decide),
   (C6_amended_config_edge_cases "   " 3 1).2.2 (by decide) (by decide)⟩

/-- C7: for `overlap < chunk_size`, concatenating the non-overlapping portions
of the word windows (step `chunk_size - overlap` from each non-final window,
the whole final window once) rebuilds the whitespace-tokenized word sequence,
and `split_chunk_text` returns exactly the space-joins of those windows —
the `chunk.strip()` filter drops nothing, so no word is lost. The hypothesis
`hw` states that every token of the split has a non-whitespace character,
which holds for any whitespace tokenization. -/
theorem C7_chunk_coverage (text : String) (chunk_size overlap : Nat)
    (hov : overlap < chunk_size)
    (hw : ∀ w ∈ pySplit text, hasNonWs w = true) :
    reconstruct (chunk_size - overlap)
        (chunkWindows chunk_size overlap (pySplit text)) = pySplit text ∧
    split_chunk_text text chunk_size overlap =
      Except.ok ((chunkWindows chunk_size overlap (pySplit text)).map joinSp) := by
  constructor
  · have h2 : chunk_size - overlap - 1 + 1 = chunk_size - overlap := by omega
    rw [chunkWindows, ← h2]
    exact reconstruct_chunkGo (by omega) _ _ le_rfl
  · simp only [split_chunk_text]
    rw [if_neg (by omega), if_neg (by omega)]
    congr 1
    apply List.filter_eq_self.mpr
    intro chunk hchunk
    obtain ⟨win, hwin, rfl⟩ := List.mem_map.mp hchunk
    rw [chunkWindows] at hwin
    obtain ⟨hne, hsub⟩ := chunkGo_mem (by omega) _ _ _ hwin
    obtain ⟨x, xs, rfl⟩ := List.exists_cons_of_ne_nil hne
    exact hasNonWs_joinSp _
      ⟨x, List.mem_cons_self x xs, hw x (hsub x (List.mem_cons_self x xs))⟩

/-! ## Chunk store lemmas -/

/-- Updating an existing key leaves the table's key list unchanged. -/
theorem tableKeys_upsertChunk_hit (t : List ChunkRow) (r : ChunkRow)
    (h : (t.any fun q => rowKey q = rowKey r) = true) :
    tableKeys (upsertChunk t r) = tableKeys t := by
  rw [upsertChunk, if_pos h, tableKeys, tableKeys, List.map_map]
  apply List.map_congr_left
  intro q _
  by_cases hq : rowKey q = rowKey r
  · simp [Function.comp, hq]
  · simp [Function.comp, hq]

/-- Upsert preserves uniqueness of `(document_id, chunk_index)`. -/
theorem tableKeys_nodup_upsertChunk {t : List ChunkRow} (r : ChunkRow)
    (h : (tableKeys t).Nodup) : (tableKeys (upsertChunk t r)).Nodup := by
  by_cases hh : (t.any fun q => rowKey q = rowKey r) = true
  · rw [tableKeys_upsertChunk_hit t r hh]
    exact h
  · rw [upsertChunk, if_neg hh]
    have hnot : rowKey r ∉ tableKeys t := by
      intro hmem
      obtain ⟨q, hq, hqk⟩ := List.mem_map.mp hmem
      exact hh (List.any_eq_true.mpr ⟨q, hq, by simp [hqk]⟩)
    simp only [tableKeys, List.map_append, List.map_cons, List.map_nil] at h hnot ⊢
    rw [List.nodup_append]
    refine ⟨h, List.nodup_singleton _, ?_⟩
    intro a ha ha'
    simp only [List.mem_cons, List.not_mem_nil, or_false] at ha'
    subst ha'
    exact hnot ha

/-- The upserted row is in the table afterwards. -/
theorem mem_upsertChunk_self (t : List ChunkRow) (r : ChunkRow) :
    r ∈ upsertChunk t r := by
  rw [upsertChunk]
  split
  · next hh =>
    rw [List.any_eq_true] at hh
    obtain ⟨q, hq, hqr⟩ := hh
    rw [decide_eq_true_eq] at hqr
    exact List.mem_map.mpr ⟨q, hq, by rw [if_pos hqr]⟩
  · exact List.mem_append_right _ (List.mem_singleton_self r)

/-- Rows with a different key survive an upsert unchanged. -/
theorem mem_upsertChunk_of_ne (t : List ChunkRow) (r q : ChunkRow)
    (hq : q ∈ t) (hne : rowKey q ≠ rowKey r) : q ∈ upsertChunk t r := by
  rw [upsertChunk]
  split
  · exact List.mem_map.mpr ⟨q, hq, by rw [if_neg hne]⟩
  · exact List.mem_append_left _ hq

/-- Every row of an upserted table is an old row or the upserted row. -/
theorem mem_of_mem_upsertChunk {t : List ChunkRow} {r q : ChunkRow}
    (hq : q ∈ upsertChunk t r) : q ∈ t ∨ q = r := by
  rw [upsertChunk] at hq
  split at hq
  · obtain ⟨p, hp, hpe⟩ := List.mem_map.mp hq
    by_cases hpr : rowKey p = rowKey r
    · rw [if_pos hpr] at hpe
      exact Or.inr hpe.symm
    · rw [if_neg hpr] at hpe
      exact Or.inl (hpe ▸ hp)
  · rcases List.mem_append.mp hq with h | h
    · exact Or.inl h
    · exact Or.inr (List.mem_singleton.mp h)

/-- Upserting a row that is already present (with identical contents) is a
no-op on a table with unique keys. -/
theorem upsertChunk_eq_of_mem {t : List ChunkRow} {r : ChunkRow}
    (hnd : (tableKeys t).Nodup) (hr : r ∈ t) : upsertChunk t r = t := by
  have hnd' : (t.map rowKey).Nodup := hnd
  rw [upsertChunk, if_pos (List.any_eq_true.mpr ⟨r, hr, by simp⟩)]
  have hpt : ∀ q ∈ t, (if rowKey q = rowKey r then r else q) = q := by
    intro q hq
    by_cases hqr : rowKey q = rowKey r
    · rw [if_pos hqr]
      exact List.inj_on_of_nodup_map hnd' hr hq hqr.symm
    · rw [if_neg hqr]
  calc t.map (fun q => if rowKey q = rowKey r then r else q)
      = t.map id := List.map_congr_left (by simpa using hpt)
    _ = t := List.map_id t

/-- On a table with unique keys, a present row's key matches exactly one row. -/
theorem filter_key_length_one {t : List ChunkRow} {r : ChunkRow}
    (hnd : (tableKeys t).Nodup) (hr : r ∈ t) :
    (t.filter (fun q => rowKey q = rowKey r)).length = 1 := by
  induction t with
  | nil => cases hr
  | cons a as ih =>
    have hnd' : (tableKeys as).Nodup ∧ rowKey a ∉ tableKeys as := by
      simp only [tableKeys, List.map_cons, List.nodup_cons] at hnd
      exact ⟨hnd.2, hnd.1⟩
    rw [List.filter_cons]
    by_cases hak : rowKey a = rowKey r
    · rw [if_pos (decide_eq_true hak)]
      have hemp : as.filter (fun q => rowKey q = rowKey r) = [] := by
        rw [List.filter_eq_nil_iff]
        intro q hq hqk
        rw [decide_eq_true_eq] at hqk
        exact hnd'.2 (List.mem_map.mpr ⟨q, hq, hqk.trans hak.symm⟩)
      rw [hemp, List.length_cons, List.length_nil]
    · rw [if_neg (by simpa using hak)]
      apply ih hnd'.1
      rcases List.mem_cons.mp hr with rfl | h
      · exact absurd rfl hak
      · exact h

/-- Case analysis for one iteration of the chunk loop: either the provisional
`document_chunks` contents are untouched (no embedding, empty embedding,
aborted transaction, or dimension mismatch — which only flips the abort
flag), or the transaction is live and the iteration upserts the completed row
built from a valid embedding. -/
theorem storeChunkStep_cases (embed : String → Option (List ℚ))
    (docId meta : String) (acc : TxRun) (ic : Nat × String) :
    ((storeChunkStep embed docId meta acc ic).chunks = acc.chunks) ∨
    (∃ emb, embed ic.2 = some emb ∧ emb ≠ [] ∧ emb.length = EMBED_DIM ∧
      acc.aborted = false ∧
      storeChunkStep embed docId meta acc ic =
        { chunks := upsertChunk acc.chunks ⟨docId, ic.1, ic.2, emb, meta, "completed"⟩,
          stored_count := acc.stored_count + 1, aborted := false }) := by
  rcases hemb : embed ic.2 with _ | emb
  · exact Or.inl (by simp [storeChunkStep, hemb])
  · by_cases hnil : emb = []
    · exact Or.inl (by simp [storeChunkStep, hemb, hnil])
    · cases hab : acc.aborted with
      | true => exact Or.inl (by simp [storeChunkStep, hemb, hnil, hab])
      | false =>
        by_cases hlen : emb.length = EMBED_DIM
        · exact Or.inr ⟨emb, rfl, hnil, hlen, rfl,
            by simp [storeChunkStep, hemb, hnil, hab, hlen]⟩
        · exact Or.inl (by simp [storeChunkStep, hemb, hnil, hab, hlen])

/-- A step never clears the abort flag and sets it exactly on a chunk whose
embedding fails the dimension check. -/
theorem storeChunkStep_aborted (embed : String → Option (List ℚ))
    (docId meta : String) (acc : TxRun) (ic : Nat × String) :
    (storeChunkStep embed docId meta acc ic).aborted =
      (acc.aborted || badEmbed embed ic.2) := by
  rcases hemb : embed ic.2 with _ | emb
  · simp [storeChunkStep, badEmbed, hemb]
  · by_cases hnil : emb = []
    · simp [storeChunkStep, badEmbed, hemb, hnil]
    · cases hab : acc.aborted with
      | true => simp [storeChunkStep, badEmbed, hemb, hnil, hab]
      | false =>
        by_cases hlen : emb.length = EMBED_DIM
        · simp [storeChunkStep, badEmbed, hemb, hnil, hab, hlen]
        · simp [storeChunkStep, badEmbed, hemb, hnil, hab, hlen]

/-- The transaction ends aborted exactly when some chunk of the batch has a
dimension-violating embedding. -/
theorem store_fold_aborted (embed : String → Option (List ℚ))
    (docId meta : String) :
    ∀ (l : List (Nat × String)) (acc : TxRun),
      ((l.foldl (storeChunkStep embed docId meta) acc).aborted) =
        (acc.aborted || l.any (fun p => badEmbed embed p.2)) := by
  intro l
  induction l with
  | nil =>
    intro acc
    simp
  | cons p l ih =>
    intro acc
    rw [List.foldl_cons, ih, storeChunkStep_aborted]
    simp [Bool.or_assoc]

/-- A chunk whose truthy embeddings all fit the column is not a bad chunk. -/
theorem badEmbed_eq_false (embed : String → Option (List ℚ)) {c : String}
    (h : ∀ emb, embed c = some emb → emb ≠ [] → emb.length = EMBED_DIM) :
    badEmbed embed c = false := by
  rcases hemb : embed c with _ | emb
  · simp [badEmbed, hemb]
  · by_cases hnil : emb = []
    · simp [badEmbed, hemb, hnil]
    · simp [badEmbed, hemb, hnil, h emb hemb hnil]

/-- The chunk loop preserves uniqueness of `(document_id, chunk_index)` in
the provisional table. -/
theorem store_fold_nodup (embed : String → Option (List ℚ)) (docId meta : String) :
    ∀ (l : List (Nat × String)) (acc : TxRun),
      (tableKeys acc.chunks).Nodup →
      (tableKeys ((l.foldl (storeChunkStep embed docId meta) acc).chunks)).Nodup := by
  intro l
  induction l with
  | nil =>
    intro acc h
    exact h
  | cons p l ih =>
    intro acc h
    rw [List.foldl_cons]
    apply ih
    rcases storeChunkStep_cases embed docId meta acc p with heq |
      ⟨emb, _, _, _, _, heq⟩
    · rw [heq]
      exact h
    · rw [heq]
      exact tableKeys_nodup_upsertChunk _ h

/-- Rows keyed outside the processed `(document_id, index)` pairs survive the
chunk loop. -/
theorem store_fold_mem_preserved (embed : String → Option (List ℚ))
    (docId meta : String) :
    ∀ (l : List (Nat × String)) (acc : TxRun) (r : ChunkRow),
      r ∈ acc.chunks →
      (∀ p ∈ l, ¬ (r.document_id = docId ∧ r.chunk_index = p.1)) →
      r ∈ ((l.foldl (storeChunkStep embed docId meta) acc).chunks) := by
  intro l
  induction l with
  | nil =>
    intro acc r hr _
    exact hr
  | cons p l ih =>
    intro acc r hr hkeys
    rw [List.foldl_cons]
    apply ih
    · rcases storeChunkStep_cases embed docId meta acc p with heq |
        ⟨emb, _, _, _, _, heq⟩
      · rw [heq]
        exact hr
      · rw [heq]
        apply mem_upsertChunk_of_ne _ _ _ hr
        intro hk
        exact hkeys p (List.mem_cons_self p l)
          ⟨congrArg Prod.fst hk, congrArg Prod.snd hk⟩
    · intro p' hp'
      exact hkeys p' (List.mem_cons_of_mem p hp')

/-- In a live transaction over a batch with no dimension-violating chunk,
every chunk with a valid embedding ends up present as a completed row. -/
theorem store_fold_mem (embed : String → Option (List ℚ)) (docId meta : String) :
    ∀ (l : List (Nat × String)) (acc : TxRun), (l.map Prod.fst).Nodup →
      acc.aborted = false →
      (∀ p ∈ l, badEmbed embed p.2 = false) →
      ∀ p ∈ l, ∀ emb, embed p.2 = some emb → emb ≠ [] → emb.length = EMBED_DIM →
      (⟨docId, p.1, p.2, emb, meta, "completed"⟩ : ChunkRow) ∈
        ((l.foldl (storeChunkStep embed docId meta) acc).chunks) := by
  intro l
  induction l with
  | nil =>
    intro acc _ _ _ p hp
    cases hp
  | cons q l ih =>
    intro acc hnd hab hnobad p hp emb hemb hne hlen
    rw [List.foldl_cons]
    have hab' : (storeChunkStep embed docId meta acc q).aborted = false := by
      rw [storeChunkStep_aborted, hab, hnobad q (List.mem_cons_self q l)]
      rfl
    rcases List.mem_cons.mp hp with rfl | hp'
    · have hrow : (⟨docId, p.1, p.2, emb, meta, "completed"⟩ : ChunkRow) ∈
          (storeChunkStep embed docId meta acc p).chunks := by
        have hstep : storeChunkStep embed docId meta acc p =
            { chunks := upsertChunk acc.chunks
                ⟨docId, p.1, p.2, emb, meta, "completed"⟩,
              stored_count := acc.stored_count + 1, aborted := false } := by
          simp [storeChunkStep, hemb, hne, hab, hlen]
        rw [hstep]
        exact mem_upsertChunk_self _ _
      apply store_fold_mem_preserved embed docId meta l _ _ hrow
      intro p' hp' hcontra
      have h1 : p.1 = p'.1 := hcontra.2
      simp only [List.map_cons, List.nodup_cons] at hnd
      exact hnd.1 (by rw [h1]; exact List.mem_map_of_mem Prod.fst hp')
    · apply ih _ ?_ hab' ?_ p hp' emb hemb hne hlen
      · simp only [List.map_cons, List.nodup_cons] at hnd
        exact hnd.2
      · intro p' hp'
        exact hnobad p' (List.mem_cons_of_mem q hp')

/-- When every valid chunk row is already present with identical contents,
the chunk loop leaves the provisional table exactly as it was. -/
theorem store_fold_fixed (embed : String → Option (List ℚ)) (docId meta : String) :
    ∀ (l : List (Nat × String)) (acc : TxRun),
      (tableKeys acc.chunks).Nodup →
      (∀ p ∈ l, ∀ emb, embed p.2 = some emb → emb ≠ [] → emb.length = EMBED_DIM →
        (⟨docId, p.1, p.2, emb, meta, "completed"⟩ : ChunkRow) ∈ acc.chunks) →
      ((l.foldl (storeChunkStep embed docId meta) acc).chunks) = acc.chunks := by
  intro l
  induction l with
  | nil =>
    intro acc _ _
    rfl
  | cons p l ih =>
    intro acc hnd hmem
    rw [List.foldl_cons]
    have hstep : (storeChunkStep embed docId meta acc p).chunks = acc.chunks := by
      rcases storeChunkStep_cases embed docId meta acc p with heq |
        ⟨emb, hemb, hne, hlen, _, heq⟩
      · exact heq
      · rw [heq]
        exact upsertChunk_eq_of_mem hnd
          (hmem p (List.mem_cons_self p l) emb hemb hne hlen)
    have h1 : (tableKeys (storeChunkStep embed docId meta acc p).chunks).Nodup := by
      rw [hstep]
      exact hnd
    have h2 : ∀ p' ∈ l, ∀ emb, embed p'.2 = some emb → emb ≠ [] →
        emb.length = EMBED_DIM →
        (⟨docId, p'.1, p'.2, emb, meta, "completed"⟩ : ChunkRow) ∈
          (storeChunkStep embed docId meta acc p).chunks := by
      intro p' hp' emb hemb hne hlen
      rw [hstep]
      exact hmem p' (List.mem_cons_of_mem p hp') emb hemb hne hlen
    rw [ih _ h1 h2, hstep]

/-- Upsert of a completed row with a 1536-dimensional embedding preserves the
completed-chunk dimension invariant. -/
theorem completedDimInv_upsertChunk {t : List ChunkRow} {r : ChunkRow}
    (ht : completedDimInv t) (hr : r.embedding.length = EMBED_DIM) :
    completedDimInv (upsertChunk t r) := by
  intro q hq hs
  rcases mem_of_mem_upsertChunk hq with h | rfl
  · exact ht q h hs
  · exact hr

/-- The chunk loop preserves the completed-chunk dimension invariant on the
provisional table. -/
theorem store_fold_inv (embed : String → Option (List ℚ)) (docId meta : String) :
    ∀ (l : List (Nat × String)) (acc : TxRun),
      completedDimInv acc.chunks →
      completedDimInv ((l.foldl (storeChunkStep embed docId meta) acc).chunks) := by
  intro l
  induction l with
  | nil =>
    intro acc h
    exact h
  | cons p l ih =>
    intro acc h
    rw [List.foldl_cons]
    apply ih
    rcases storeChunkStep_cases embed docId meta acc p with heq |
      ⟨emb, _, _, hlen, _, heq⟩
    · rw [heq]
      exact h
    · rw [heq]
      exact completedDimInv_upsertChunk h hlen

/-- With a dimension-violating chunk somewhere in the batch, the whole
transaction rolls back: the stored state is exactly the initial state. -/
theorem store_chunks_rollback (embed : String → Option (List ℚ))
    (docId meta : String) (chunks : List String) (st : StoreState)
    (hbad : chunks.enum.any (fun p => badEmbed embed p.2) = true) :
    (store_chunks_in_aurora embed docId chunks meta st).state = st := by
  rw [store_chunks_in_aurora, commitTx,
    if_pos (by rw [store_fold_aborted]; simpa using hbad)]

/-- With no dimension-violating chunk in the batch, the transaction commits
and the stored table is the provisional table of the chunk loop. -/
theorem store_chunks_commit_chunks (embed : String → Option (List ℚ))
    (docId meta : String) (chunks : List String) (st : StoreState)
    (hgood : chunks.enum.any (fun p => badEmbed embed p.2) = false) :
    (store_chunks_in_aurora embed docId chunks meta st).state.chunks =
      (chunks.enum.foldl (storeChunkStep embed docId meta)
        { chunks := st.chunks, stored_count := 0, aborted := false }).chunks := by
  rw [store_chunks_in_aurora, commitTx,
    if_neg (by rw [store_fold_aborted]; simp [hgood])]

/-! ## Claim theorems: chunk store -/

/-- C1: on a table whose `(document_id, chunk_index)` keys are unique,
running `store_chunks_in_aurora` twice with identical input for the same
document leaves the `document_chunks` table of the second run identical to
that of the first run (in the commit case by re-upserting identical rows, in
the rollback case because both runs discard the whole batch); keys stay
unique and the document's chunk count is unchanged. When the batch commits —
no generated embedding violates the `vector(1536)` dimension — every
successfully embedded chunk occupies exactly one row under its
`(document_id, chunk_index)` key. -/
theorem C1_upsert_idempotency (embed : String → Option (List ℚ))
    (docId meta : String) (chunks : List String) (st : StoreState)
    (hnd : (tableKeys st.chunks).Nodup) :
    (store_chunks_in_aurora embed docId chunks meta
        (store_chunks_in_aurora embed docId chunks meta st).state).state.chunks =
      (store_chunks_in_aurora embed docId chunks meta st).state.chunks ∧
    (tableKeys (store_chunks_in_aurora embed docId chunks meta
        (store_chunks_in_aurora embed docId chunks meta st).state).state.chunks).Nodup ∧
    docChunkCount (store_chunks_in_aurora embed docId chunks meta
        (store_chunks_in_aurora embed docId chunks meta st).state).state.chunks docId =
      docChunkCount (store_chunks_in_aurora embed docId chunks meta st).state.chunks docId ∧
    ((∀ p ∈ chunks.enum, ∀ emb, embed p.2 = some emb → emb ≠ [] →
        emb.length = EMBED_DIM) →
      ∀ p ∈ chunks.enum, ∀ emb, embed p.2 = some emb → emb ≠ [] →
        ((store_chunks_in_aurora embed docId chunks meta
            (store_chunks_in_aurora embed docId chunks meta st).state).state.chunks.filter
          (fun q => rowKey q = (docId, p.1))).length = 1) := by
  by_cases hbad : chunks.enum.any (fun p => badEmbed embed p.2) = true
  · have e1 : (store_chunks_in_aurora embed docId chunks meta st).state = st :=
      store_chunks_rollback embed docId meta chunks st hbad
    have e2 : (store_chunks_in_aurora embed docId chunks meta
        (store_chunks_in_aurora embed docId chunks meta st).state).state =
        (store_chunks_in_aurora embed docId chunks meta st).state :=
      store_chunks_rollback embed docId meta chunks
        (store_chunks_in_aurora embed docId chunks meta st).state hbad
    refine ⟨congrArg StoreState.chunks e2, ?_, ?_, ?_⟩
    · rw [e2, e1]
      exact hnd
    · rw [e2]
    · intro hvalid
      have hall : chunks.enum.any (fun p => badEmbed embed p.2) = false := by
        rw [List.any_eq_false]
        intro p hp
        simp [badEmbed_eq_false embed
          (fun emb hemb hne => hvalid p hp emb hemb hne)]
      rw [hall] at hbad
      cases hbad
  · have hgood : chunks.enum.any (fun p => badEmbed embed p.2) = false := by
      simpa using hbad
    have hnobad : ∀ p ∈ chunks.enum, badEmbed embed p.2 = false := by
      rw [List.any_eq_false] at hgood
      intro p hp
      simpa using hgood p hp
    have hen : (chunks.enum.map Prod.fst).Nodup := by
      rw [List.enum_map_fst]
      exact List.nodup_range _
    have e1 := store_chunks_commit_chunks embed docId meta chunks st hgood
    have e2 := store_chunks_commit_chunks embed docId meta chunks
      (store_chunks_in_aurora embed docId chunks meta st).state hgood
    have hnd1 : (tableKeys ((chunks.enum.foldl (storeChunkStep embed docId meta)
        { chunks := st.chunks, stored_count := 0, aborted := false }).chunks)).Nodup :=
      store_fold_nodup embed docId meta chunks.enum _ hnd
    have hmem1 : ∀ p ∈ chunks.enum, ∀ emb, embed p.2 = some emb → emb ≠ [] →
        emb.length = EMBED_DIM →
        (⟨docId, p.1, p.2, emb, meta, "completed"⟩ : ChunkRow) ∈
          ((chunks.enum.foldl (storeChunkStep embed docId meta)
            { chunks := st.chunks, stored_count := 0, aborted := false }).chunks) :=
      fun p hp emb hemb hne hlen =>
        store_fold_mem embed docId meta chunks.enum _ hen rfl hnobad
          p hp emb hemb hne hlen
    have hc1 : (store_chunks_in_aurora embed docId chunks meta
        (store_chunks_in_aurora embed docId chunks meta st).state).state.chunks =
        (store_chunks_in_aurora embed docId chunks meta st).state.chunks := by
      rw [e2, e1]
      exact store_fold_fixed embed docId meta chunks.enum _ hnd1 hmem1
    refine ⟨hc1, ?_, ?_, ?_⟩
    · rw [hc1, e1]
      exact hnd1
    · rw [hc1]
    · intro hvalid p hp emb hemb hne
      rw [hc1, e1]
      exact filter_key_length_one hnd1
        (hmem1 p hp emb hemb hne (hvalid p hp emb hemb hne))

/-- C1 witness: a deterministic embedder with valid 1536-float vectors, two
chunks, empty initial table. -/
theorem C1_upsert_idempotency_witness :
    (store_chunks_in_aurora (fun _ => some (List.replicate EMBED_DIM 1)) "doc"
        ["alpha", "beta"] "meta"
        (store_chunks_in_aurora (fun _ => some (List.replicate EMBED_DIM 1)) "doc"
          ["alpha", "beta"] "meta" ⟨[], []⟩).state).state.chunks =
      (store_chunks_in_aurora (fun _ => some (List.replicate EMBED_DIM 1)) "doc"
        ["alpha", "beta"] "meta" ⟨[], []⟩).state.chunks :=
  (C1_upsert_idempotency (fun _ => some (List.replicate EMBED_DIM 1)) "doc" "meta"
    ["alpha", "beta"] ⟨[], []⟩ (by simp [tableKeys])).1

/-- C2: `store_chunks_in_aurora` preserves the invariant that every chunk row
stored with status `'completed'` carries an embedding of exactly
`EMBED_DIM = 1536` floats: chunks whose embedding generation fails (`None` or
`[]`) are skipped; a chunk whose vector does not fit the `vector(1536)`
column aborts the transaction, whose commit then rolls the whole batch back —
in neither case is anything stored as `'completed'` with an empty, partial or
missing vector. -/
theorem C2_completed_dim_invariant (embed : String → Option (List ℚ))
    (docId meta : String) (chunks : List String) (st : StoreState)
    (h : completedDimInv st.chunks) :
    completedDimInv (store_chunks_in_aurora embed docId chunks meta st).state.chunks := by
  rw [store_chunks_in_aurora, commitTx]
  split
  · exact h
  · exact store_fold_inv embed docId meta chunks.enum _ h

/-- C2 witness: an embedder returning a 2-dimensional vector (dimension
mismatch) against the empty table — the transaction rolls back and nothing is
stored as completed. -/
theorem C2_completed_dim_invariant_witness :
    completedDimInv (store_chunks_in_aurora (fun _ => some [1, 2]) "doc"
      ["alpha"] "meta" ⟨[], []⟩).state.chunks :=
  C2_completed_dim_invariant (fun _ => some [1, 2]) "doc" "meta" ["alpha"]
    ⟨[], []⟩ (fun r hr => by cases hr)


/-! ## Cosine similarity lemmas and claim theorem -/

/-- A sum of squares is nonnegative. -/
theorem sumSq_nonneg (a : List ℝ) : 0 ≤ sumSq a := by
  apply List.sum_nonneg
  intro x hx
  obtain ⟨y, _, rfl⟩ := List.mem_map.mp hx
  exact mul_self_nonneg y

/-- The square root of a sum of squares vanishes exactly when the sum does. -/
theorem sqrt_sumSq_eq_zero_iff (a : List ℝ) :
    Real.sqrt (sumSq a) = 0 ↔ sumSq a = 0 := by
  constructor
  · intro h
    exact le_antisymm (Real.sqrt_eq_zero'.mp h) (sumSq_nonneg a)
  · intro h
    rw [h, Real.sqrt_zero]

/-- `zip`ping a list with itself multiplies each element with itself. -/
theorem dotProd_self (a : List ℝ) : dotProd a a = sumSq a := by
  induction a with
  | nil => rfl
  | cons x xs ih =>
    simp only [dotProd, sumSq, List.zipWith_cons_cons, List.map_cons,
      List.sum_cons] at ih ⊢
    rw [ih]

/-- C3: `cosine_similarity` returns the dot product divided by the product of
the L2 norms when both norms are nonzero; it returns exactly `0` whenever
either vector has zero norm (no `NaN`, no exception — division never
happens); orthogonal vectors (zero dot product) score `0`; and any vector
identical to itself with nonzero norm — in particular a unit vector — scores
`1`. -/
theorem C3_cosine_similarity (a b : List ℝ) :
    (sumSq a = 0 ∨ sumSq b = 0 → cosine_similarity a b = 0) ∧
    (dotProd a b = 0 → cosine_similarity a b = 0) ∧
    (sumSq a ≠ 0 → sumSq b ≠ 0 →
      cosine_similarity a b =
        dotProd a b / (Real.sqrt (sumSq a) * Real.sqrt (sumSq b))) ∧
    (sumSq a ≠ 0 → cosine_similarity a a = 1) := by
  refine ⟨fun h => ?_, fun h => ?_, fun ha hb => ?_, fun ha => ?_⟩
  · rw [cosine_similarity, if_pos]
    rcases h with h | h
    · exact Or.inl ((sqrt_sumSq_eq_zero_iff a).mpr h)
    · exact Or.inr ((sqrt_sumSq_eq_zero_iff b).mpr h)
  · rw [cosine_similarity]
    split
    · rfl
    · rw [h, zero_div]
  · rw [cosine_similarity, if_neg]
    push_neg
    exact ⟨fun h => ha ((sqrt_sumSq_eq_zero_iff a).mp h),
      fun h => hb ((sqrt_sumSq_eq_zero_iff b).mp h)⟩
  · rw [cosine_similarity, if_neg, dotProd_self,
      Real.mul_self_sqrt (sumSq_nonneg a), div_self ha]
    push_neg
    have h' := fun h => ha ((sqrt_sumSq_eq_zero_iff a).mp h)
    exact ⟨h', h'⟩

/-- C3 witness: orthogonal unit vectors score `0`, an identical pair of unit
vectors scores `1`. -/
theorem C3_cosine_similarity_witness :
    cosine_similarity [(1 : ℝ), 0] [0, 1] = 0 ∧
    cosine_similarity [(1 : ℝ), 0] [1, 0] = 1 :=
  ⟨(C3_cosine_similarity [(1 : ℝ), 0] [0, 1]).2.1
      (by norm_num [dotProd, List.zipWith]),
   (C3_cosine_similarity [(1 : ℝ), 0] [1, 0]).2.2.2
      (by norm_num [sumSq, List.map])⟩

/-! ## Embedder retry lemmas and claim theorem -/

/-- When every attempt from `attempt` through `retries` fails, the retry loop
makes exactly the remaining attempts, sleeps `base * k` after each failed
attempt `k < retries`, and returns the empty list. -/
theorem embedLoop_allfail (oracle : Nat → Option (List ℚ)) (base retries : Nat) :
    ∀ (fuel attempt : Nat) (sleeps : List Nat), 1 ≤ attempt → attempt ≤ retries →
      attempt + fuel = retries + 1 →
      (∀ k, attempt ≤ k → k ≤ retries → oracle k = none) →
      embedLoop oracle base retries attempt fuel sleeps =
        { result := some [],
          sleeps := sleeps ++
            ((List.range (retries - attempt)).map (fun i => base * (attempt + i))),
          attempts := retries } := by
  intro fuel
  induction fuel with
  | zero =>
    intro attempt sleeps h1 h2 h3 _
    omega
  | succ fuel ih =>
    intro attempt sleeps h1 h2 h3 hfail
    rw [embedLoop]
    rw [hfail attempt le_rfl h2]
    by_cases hlt : attempt < retries
    · rw [if_pos hlt]
      rw [ih (attempt + 1) (sleeps ++ [base * attempt]) (by omega) (by omega)
        (by omega) (fun k hk1 hk2 => hfail k (by omega) hk2)]
      have hm : retries - attempt = (retries - (attempt + 1)) + 1 := by omega
      rw [hm, List.range_succ_eq_map, List.map_cons, List.map_map]
      have hfun : ((fun i => base * (attempt + i)) ∘ Nat.succ) =
          (fun i => base * (attempt + 1 + i)) := by
        funext i
        have hi : attempt + (i + 1) = attempt + 1 + i := by omega
        simp only [Function.comp, Nat.succ_eq_add_one, hi]
      rw [hfun]
      simp
    · rw [if_neg hlt]
      have : attempt = retries := by omega
      subst this
      simp

/-- C8: when every one of the `retries` attempts fails, `get_chunk_embedding`
makes exactly `retries` attempts, sleeps `base * attempt` (linear backoff)
between consecutive attempts — i.e. after attempts `1 .. retries - 1` — and
returns the empty list `[]`, the caller-visible failure value; `[]` is
distinguishable from every valid embedding (which has `EMBED_DIM = 1536`
components) and in particular from the zero vector of dimension 1536. -/
theorem C8_embedder_retry (oracle : Nat → Option (List ℚ)) (base retries : Nat)
    (hr : 0 < retries) (hfail : ∀ k, 1 ≤ k → k ≤ retries → oracle k = none) :
    (get_chunk_embedding oracle base retries).result = some [] ∧
    (get_chunk_embedding oracle base retries).attempts = retries ∧
    (get_chunk_embedding oracle base retries).sleeps =
      (List.range (retries - 1)).map (fun i => base * (1 + i)) ∧
    (∀ v : List ℚ, v.length = EMBED_DIM →
      (get_chunk_embedding oracle base retries).result ≠ some v) ∧
    (get_chunk_embedding oracle base retries).result ≠
      some (List.replicate EMBED_DIM 0) := by
  have h := embedLoop_allfail oracle base retries retries 1 [] le_rfl hr
    (by omega) hfail
  rw [get_chunk_embedding, h]
  refine ⟨rfl, rfl, List.nil_append _, fun v hv hcontra => ?_, fun hcontra => ?_⟩
  · have : ([] : List ℚ) = v := by
      simpa using hcontra
    rw [← this] at hv
    simp [EMBED_DIM] at hv
  · have h0 : ([] : List ℚ) = List.replicate EMBED_DIM 0 := by
      simpa using hcontra
    have hlen := congrArg List.length h0
    rw [List.length_replicate, List.length_nil] at hlen
    simp [EMBED_DIM] at hlen

/-- C8 witness: an oracle that always fails, `base = 2`, `retries = 3`. -/
theorem C8_embedder_retry_witness :
    (get_chunk_embedding (fun _ => none) 2 3).result = some [] ∧
    (get_chunk_embedding (fun _ => none) 2 3).attempts = 3 ∧
    (get_chunk_embedding (fun _ => none) 2 3).sleeps =
      (List.range 2).map (fun i => 2 * (1 + i)) :=
  ⟨(C8_embedder_retry (fun _ => none) 2 3 (by decide) (fun _ _ _ => rfl)).1,
   (C8_embedder_retry (fun _ => none) 2 3 (by decide) (fun _ _ _ => rfl)).2.1,
   (C8_embedder_retry (fun _ => none) 2 3 (by decide) (fun _ _ _ => rfl)).2.2.1⟩

/-! ## Sync trigger lemmas and claim theorems -/

/-- When the service reports a conflict on every attempt in the window, the
trigger loop uses up all remaining attempts, sleeping
`base * 2 ^ attempt + jitter attempt` after each one, and returns normally
with no job id. -/
theorem triggerLoop_conflict (oracle : Nat → StartResult) (base : ℚ)
    (jitter : Nat → ℚ) :
    ∀ (remaining attempt : Nat) (sleeps : List ℚ),
      (∀ k, attempt ≤ k → k < attempt + remaining → oracle k = .conflict) →
      triggerLoop oracle base jitter attempt remaining sleeps =
        { result := .ok none, attempts := attempt + remaining,
          sleeps := sleeps ++ ((List.range remaining).map
            (fun i => base * 2 ^ (attempt + i) + jitter (attempt + i))) } := by
  intro remaining
  induction remaining with
  | zero =>
    intro attempt sleeps _
    simp [triggerLoop]
  | succ remaining ih =>
    intro attempt sleeps hconf
    rw [triggerLoop, hconf attempt le_rfl (by omega)]
    rw [ih (attempt + 1) _ (fun k hk1 hk2 => hconf k (by omega) (by omega))]
    have hm : (List.range (remaining + 1)).map
        (fun i => base * 2 ^ (attempt + i) + jitter (attempt + i)) =
        (base * 2 ^ attempt + jitter attempt) ::
          (List.range remaining).map
            (fun i => base * 2 ^ (attempt + 1 + i) + jitter (attempt + 1 + i)) := by
      rw [List.range_succ_eq_map, List.map_cons, List.map_map]
      have hfun : ((fun i => base * 2 ^ (attempt + i) + jitter (attempt + i)) ∘
          Nat.succ) = (fun i => base * 2 ^ (attempt + 1 + i) +
            jitter (attempt + 1 + i)) := by
        funext i
        have hi : attempt + (i + 1) = attempt + 1 + i := by omega
        simp only [Function.comp, Nat.succ_eq_add_one, hi]
      rw [hfun]
      simp
    rw [hm]
    have hatt : attempt + (remaining + 1) = attempt + 1 + remaining := by omega
    rw [hatt]
    simp

/-- C9 counterexample: with a service that reports a conflict on every start
attempt, `max_retries = 3`, base 5 and jitter 1, `trigger_bedrock_ingestion`
returns normally with `None` (`Except.ok none`) after its 3 attempts — no
`SyncError` (or any other exception) is surfaced, contradicting the claim
that the failure is surfaced as a `SyncError`. -/
theorem C9_counterexample :
    (trigger_bedrock_ingestion (fun _ => .conflict) 5 (fun _ => 1) 3).result =
        Except.ok none ∧
    (trigger_bedrock_ingestion (fun _ => .conflict) 5 (fun _ => 1) 3).attempts = 3 ∧
    (trigger_bedrock_ingestion (fun _ => .conflict) 5 (fun _ => 1) 3).sleeps =
        [6, 11, 21] := by
  refine ⟨rfl, rfl, ?_⟩
  norm_num [trigger_bedrock_ingestion, triggerLoop]

/-- C9 (amended): when the job-control service reports a conflict on every
start attempt, `trigger_bedrock_ingestion` performs exactly `max_retries`
attempts, sleeps `base * 2 ^ attempt + jitter` after each failed attempt
(exponential backoff with jitter), and then returns normally with no job id
(`None`) — it neither loops forever nor returns a started job, but it also
raises nothing: the missing job id is the only failure signal. -/
theorem C9_sync_trigger_backoff (oracle : Nat → StartResult) (base : ℚ)
    (jitter : Nat → ℚ) (max_retries : Nat)
    (hconf : ∀ k, k < max_retries → oracle k = .conflict) :
    (trigger_bedrock_ingestion oracle base jitter max_retries).result =
        Except.ok none ∧
    (trigger_bedrock_ingestion oracle base jitter max_retries).attempts =
        max_retries ∧
    (trigger_bedrock_ingestion oracle base jitter max_retries).sleeps =
        (List.range max_retries).map (fun i => base * 2 ^ i + jitter i) := by
  have h := triggerLoop_conflict oracle base jitter max_retries 0 []
    (fun k _ hk => hconf k (by omega))
  rw [trigger_bedrock_ingestion, h]
  refine ⟨rfl, by simp, by simp⟩

/-- C9 witness for the amended claim: permanent conflict, `max_retries = 2`. -/
theorem C9_sync_trigger_backoff_witness :
    (trigger_bedrock_ingestion (fun _ => .conflict) 5 (fun _ => 2) 2).result =
        Except.ok none ∧
    (trigger_bedrock_ingestion (fun _ => .conflict) 5 (fun _ => 2) 2).attempts = 2 ∧
    (trigger_bedrock_ingestion (fun _ => .conflict) 5 (fun _ => 2) 2).sleeps =
        (List.range 2).map (fun i => 5 * 2 ^ i + 2) :=
  ⟨(C9_sync_trigger_backoff (fun _ => .conflict) 5 (fun _ => 2) 2
      (fun _ _ => rfl)).1,
   (C9_sync_trigger_backoff (fun _ => .conflict) 5 (fun _ => 2) 2
      (fun _ _ => rfl)).2.1,
   (C9_sync_trigger_backoff (fun _ => .conflict) 5 (fun _ => 2) 2
      (fun _ _ => rfl)).2.2⟩

/-- C7 witness: coverage at the spec's worked example. -/
theorem C7_chunk_coverage_witness :
    reconstruct 3 (chunkWindows 4 1
        (pySplit "The quick brown fox jumps over the lazy dog")) =
      pySplit "The quick brown fox jumps over the lazy dog" ∧
    split_chunk_text "The quick brown fox jumps over the lazy dog" 4 1 =
      Except.ok ((chunkWindows 4 1
        (pySplit "The quick brown fox jumps over the lazy dog")).map joinSp) :=
  C7_chunk_coverage "The quick brown fox jumps over the lazy dog" 4 1
    (by decide) (by decide)

/-! ## Filtered retrieval lemmas and claim theorem -/

/-- The assembled filter is satisfied exactly when every condition of the
`filter_conditions` list is. -/
theorem buildKBFilter_matches (meta : MetaAttrs) (cs : List Cond) :
    matchesKBFilter meta (buildKBFilter cs) = cs.all (matchesCond meta) := by
  match cs with
  | [] => rfl
  | [c] => simp [buildKBFilter, matchesKBFilter]
  | c1 :: c2 :: rest => rfl

/-- Satisfaction of the condition contributed by one optional scalar filter. -/
theorem optCond_all (meta : MetaAttrs) (key : String) (o : Option String) :
    (optCond key o).all (matchesCond meta) =
      (match o with
       | none => true
       | some v => if v = "" then true else meta.lookup key = some v) := by
  cases o with
  | none => rfl
  | some v =>
    by_cases hv : v = ""
    · simp [optCond, hv]
    · simp [optCond, hv, matchesCond]

/-- Satisfaction of the condition contributed by `document_ids`. -/
theorem docIdsCond_all (meta : MetaAttrs) (docIds : Option (List String)) :
    (docIdsCond docIds).all (matchesCond meta) =
      (match docIds with
       | none => true
       | some l =>
         if 1 < l.length then l.any (fun v => meta.lookup "document_id" = some v)
         else if l.length = 1 then meta.lookup "document_id" = some (l.headD "")
         else true) := by
  cases docIds with
  | none => rfl
  | some l =>
    by_cases h1 : 1 < l.length
    · simp only [docIdsCond, if_pos h1, List.all_cons, List.all_nil,
        Bool.and_true, matchesCond]
      clear h1
      induction l with
      | nil => rfl
      | cons v vs ih =>
        rw [List.map_cons, List.any_cons, List.any_cons, ih]
    · by_cases h2 : l.length = 1
      · simp [docIdsCond, h1, h2, matchesCond]
      · simp [docIdsCond, h1, h2]

/-- The filter built by `retrieve_from_knowledge_base` denotes exactly the
conjunction of the provided (truthy) filter values. -/
theorem filterConditions_all (docIds : Option (List String))
    (tenant user project thread : Option String) (meta : MetaAttrs) :
    (buildFilterConditions docIds tenant user project thread).all
        (matchesCond meta) =
      specMatches docIds tenant user project thread meta := by
  simp only [buildFilterConditions, List.all_append, specMatches,
    docIdsCond_all, optCond_all]

/-- C4: every chunk returned by `retrieve_from_knowledge_base` satisfies all
the provided metadata filters (documents disjunctively, the scalar filters
conjunctively); the result never contains more chunks than match the filter —
if only `m < k` chunks match, at most `m` are returned, with no padding by
non-matching chunks — and never more than `k`. -/
theorem C4_filter_before_rank (corpus : List KBChunk) (k : Nat)
    (tenant user : Option String) (docIds : Option (List String))
    (project thread : Option String) :
    (∀ c ∈ retrieve_from_knowledge_base corpus k tenant user docIds project thread,
      specMatches docIds tenant user project thread c.meta = true) ∧
    (retrieve_from_knowledge_base corpus k tenant user docIds project thread).length ≤
      (corpus.filter (fun c =>
        specMatches docIds tenant user project thread c.meta)).length ∧
    (retrieve_from_knowledge_base corpus k tenant user docIds project thread).length ≤
      k := by
  have hpq : ∀ c : KBChunk,
      matchesKBFilter c.meta
        (buildKBFilter (buildFilterConditions docIds tenant user project thread)) =
      specMatches docIds tenant user project thread c.meta := by
    intro c
    rw [buildKBFilter_matches, filterConditions_all]
  have hfilter : corpus.filter (fun c => matchesKBFilter c.meta
        (buildKBFilter (buildFilterConditions docIds tenant user project thread))) =
      corpus.filter (fun c => specMatches docIds tenant user project thread c.meta) :=
    List.filter_congr (fun c _ => hpq c)
  refine ⟨?_, ?_, ?_⟩
  · intro c hc
    rw [retrieve_from_knowledge_base, bedrockRetrieve] at hc
    have hc1 := List.mem_of_mem_take hc
    rw [List.mem_mergeSort] at hc1
    have hc2 := List.mem_filter.mp hc1
    rw [← hpq c]
    exact hc2.2
  · rw [retrieve_from_knowledge_base, bedrockRetrieve, ← hfilter]
    simp only [List.length_take, List.length_mergeSort]
    exact Nat.min_le_right _ _
  · rw [retrieve_from_knowledge_base, bedrockRetrieve]
    simp only [List.length_take, List.length_mergeSort]
    exact Nat.min_le_left _ _

/-- C4 witness: a two-chunk corpus with distinct tenants and a tenant filter. -/
theorem C4_filter_before_rank_witness :
    (retrieve_from_knowledge_base
        [⟨"c1", [("tenant_id", "t1")], 1⟩, ⟨"c2", [("tenant_id", "t2")], 2⟩] 5
        (some "t1") none none none none).length ≤
      ([(⟨"c1", [("tenant_id", "t1")], 1⟩ : KBChunk),
        ⟨"c2", [("tenant_id", "t2")], 2⟩].filter
        (fun c => specMatches none (some "t1") none none none c.meta)).length :=
  (C4_filter_before_rank
    [⟨"c1", [("tenant_id", "t1")], 1⟩, ⟨"c2", [("tenant_id", "t2")], 2⟩] 5
    (some "t1") none none none none).2.1

/-! ## Local retrieval claim theorem -/

/-- C10: the brute-force retrieval pipeline is total (malformed stored rows
are skipped, never raised on): the ranked list is a permutation of the scored
images of exactly the candidate rows — those whose stored embedding parses to
a nonempty vector of the query's length — so all surviving chunks are ranked;
and every returned result comes from such a row, so a row whose embedding
fails to parse, is empty, or has mismatched length never reaches the
results. -/
theorem C10_retrieval_robustness (sim : List ℚ → List ℚ → ℚ)
    (rows : List StoredRow) (q : List ℚ) (top_k : Nat) :
    (queryRanked sim rows q).Perm ((queryCandidates rows q).map
      (fun c => (⟨c.1, c.2.2, sim q c.2.1⟩ : ScoredChunk))) ∧
    ∀ c ∈ query_top_chunks sim rows q top_k,
      ∃ row ∈ rows, ∃ vec, parse_embedding row.embedding = some vec ∧
        vec ≠ [] ∧ vec.length = q.length ∧
        c = ⟨row.chunk_text, row.metadata, sim q vec⟩ := by
  constructor
  · exact List.mergeSort_perm _ _
  · intro c hc
    rw [query_top_chunks] at hc
    split at hc
    · exact absurd hc (List.not_mem_nil c)
    · have hc1 := List.mem_of_mem_take hc
      rw [queryRanked, List.mem_mergeSort] at hc1
      obtain ⟨cand, hcand, rfl⟩ := List.mem_map.mp hc1
      rw [queryCandidates, List.mem_filter] at hcand
      obtain ⟨hcv, hclen⟩ := hcand
      rw [chunkVectors, List.mem_filterMap] at hcv
      obtain ⟨row, hrow, hf⟩ := hcv
      refine ⟨row, hrow, ?_⟩
      rcases hp : parse_embedding row.embedding with _ | vec
      · simp only [hp] at hf
        cases hf
      · simp only [hp] at hf
        by_cases hnil : vec = []
        · rw [if_pos hnil] at hf
          cases hf
        · rw [if_neg hnil] at hf
          cases hf
          exact ⟨vec, rfl, hnil, of_decide_eq_true hclen, rfl⟩

/-- C10 witness: a corpus with one well-formed row, one malformed row and one
wrong-length row; the ranked list is a permutation of the scored candidates. -/
theorem C10_retrieval_robustness_witness :
    (queryRanked (fun _ _ => 0)
        [⟨"good", .parsed [1, 2], "m1"⟩, ⟨"bad", .malformed, "m2"⟩,
         ⟨"short", .parsed [1], "m3"⟩] [1, 2]).Perm
      ((queryCandidates
        [⟨"good", .parsed [1, 2], "m1"⟩, ⟨"bad", .malformed, "m2"⟩,
         ⟨"short", .parsed [1], "m3"⟩] [1, 2]).map
        (fun c => (⟨c.1, c.2.2, (0 : ℚ)⟩ : ScoredChunk))) :=
  (C10_retrieval_robustness (fun _ _ => 0)
    [⟨"good", .parsed [1, 2], "m1"⟩, ⟨"bad", .malformed, "m2"⟩,
     ⟨"short", .parsed [1], "m3"⟩] [1, 2] 5).1

end BedrockPOC
